import Mathlib

/-!
# Verification of the digital-modulation simulator core

Shallow embedding of the signal-processing core of the digital-modulation
simulator (constellation generation, modulation, minimum-distance
demodulation, bit-error counting, theoretical BER formulas, the bisection
lookup of required Eb/N0, and the Monte-Carlo sweep loop).

JavaScript `number` arithmetic is embedded as exact real arithmetic over `ℝ`;
machine strings and integer counters are embedded as `String` and `ℕ`;
thrown exceptions are embedded as `Except String`; the IEEE value `Infinity`
is embedded where needed by `Option` (with `none` standing for `Infinity`).
-/

namespace ModSim

-- =============================================================================
-- Scheme enumeration and bits-per-symbol table (src/types/index.ts)
-- =============================================================================

/-- `ModulationScheme`: the closed enumeration of the five supported schemes.
`PSK8`, `QAM16`, `QAM64` stand for the source tags `8-PSK`, `16-QAM`, `64-QAM`. -/
inductive ModulationScheme where
  | BPSK
  | QPSK
  | PSK8
  | QAM16
  | QAM64
deriving DecidableEq, Repr

/-- The `BITS_PER_SYMBOL` lookup table from `src/types/index.ts`. -/
def BITS_PER_SYMBOL : ModulationScheme → ℕ
  | .BPSK => 1
  | .QPSK => 2
  | .PSK8 => 3
  | .QAM16 => 4
  | .QAM64 => 6

-- =============================================================================
-- String / list helpers used by the modulator (computable part)
-- =============================================================================

/-- JavaScript `array.join('')` on an array of numbers: decimal rendering of
each entry, concatenated. -/
def joinBits (chunk : List ℕ) : String :=
  chunk.foldl (fun s b => s ++ Nat.repr b) ""

/-- The `for (let i = 0; i + k <= bits.length; i += k)` grouping of
`modulateBits`: the maximal list of consecutive complete groups of size `k`;
trailing bits that do not fill a group are dropped.  For `k = 0` the source
loop would not terminate; the claims only use `k ≥ 1`, and we return `[]`. -/
def fullChunks (k : ℕ) (l : List ℕ) : List (List ℕ) :=
  if _h : 0 < k ∧ k ≤ l.length then
    l.take k :: fullChunks k (l.drop k)
  else
    []
termination_by l.length
decreasing_by
  simp only [List.length_drop]
  omega

/-- All bit strings of length `n` over the characters 0 and 1, used to state
that a generated alphabet covers every combination. -/
def allBitStrings : ℕ → List String
  | 0 => [""]
  | n + 1 => (allBitStrings n).flatMap fun s => [s ++ "0", s ++ "1"]

-- =============================================================================
-- Complex samples and numeric primitives (src/utils/math.ts)
-- =============================================================================

/-- The `Complex` interface: a baseband I/Q sample. -/
structure Complex where
  I : ℝ
  Q : ℝ

/-- A `ConstellationPoint`: a complex sample together with its bit label. -/
structure ConstellationPoint extends Complex where
  bits : String

instance : Inhabited ConstellationPoint := ⟨⟨⟨0, 0⟩, ""⟩⟩

noncomputable section

/-- `complexFromPolar(r, theta)` from `src/utils/math.ts`. -/
def complexFromPolar (r theta : ℝ) : Complex :=
  ⟨r * Real.cos theta, r * Real.sin theta⟩

/-- `complexMagnitudeSquared(z)` from `src/utils/math.ts`. -/
def complexMagnitudeSquared (z : Complex) : ℝ :=
  z.I * z.I + z.Q * z.Q

/-- `complexDistanceSquared(a, b)` from `src/utils/math.ts`. -/
def complexDistanceSquared (a b : Complex) : ℝ :=
  (a.I - b.I) * (a.I - b.I) + (a.Q - b.Q) * (a.Q - b.Q)

/-- `complexAdd(a, b)` from `src/utils/math.ts`. -/
def complexAdd (a b : Complex) : Complex :=
  ⟨a.I + b.I, a.Q + b.Q⟩

/-- `dbToLinear(db)` from `src/utils/math.ts`: `10^(db/10)`. -/
def dbToLinear (db : ℝ) : ℝ :=
  (10 : ℝ) ^ (db / 10)

-- =============================================================================
-- Constellation generation (src/utils/modulation.ts)
-- =============================================================================

/-- `generateBPSK()` from `src/utils/modulation.ts`. -/
def generateBPSK : List ConstellationPoint :=
  [ { I := 1, Q := 0, bits := "0" },
    { I := -1, Q := 0, bits := "1" } ]

/-- `generateQPSK()` from `src/utils/modulation.ts`. -/
def generateQPSK : List ConstellationPoint :=
  let scale := 1 / Real.sqrt 2
  [ { I := scale, Q := scale, bits := "00" },
    { I := -scale, Q := scale, bits := "01" },
    { I := -scale, Q := -scale, bits := "11" },
    { I := scale, Q := -scale, bits := "10" } ]

/-- `generate8PSK()` from `src/utils/modulation.ts`. -/
def generate8PSK : List ConstellationPoint :=
  let grayCode3 := ["000", "001", "011", "010", "110", "111", "101", "100"]
  (List.range 8).map fun (i : ℕ) =>
    let angle := ((i : ℝ) * Real.pi) / 4
    let point := complexFromPolar 1 angle
    { I := point.I, Q := point.Q, bits := grayCode3.getD i "" }

/-- `generate16QAM()` from `src/utils/modulation.ts`. -/
def generate16QAM : List ConstellationPoint :=
  let gray2 := ["00", "01", "11", "10"]
  let coords : List ℝ := [-3, -1, 1, 3]
  let scale := 1 / Real.sqrt 10
  (List.range 4).flatMap fun qi =>
    (List.range 4).map fun ii =>
      { I := coords.getD ii 0 * scale,
        Q := coords.getD qi 0 * scale,
        bits := gray2.getD ii "" ++ gray2.getD qi "" }

/-- `generate64QAM()` from `src/utils/modulation.ts`. -/
def generate64QAM : List ConstellationPoint :=
  let gray3 := ["000", "001", "011", "010", "110", "111", "101", "100"]
  let coords : List ℝ := [-7, -5, -3, -1, 1, 3, 5, 7]
  let scale := 1 / Real.sqrt 42
  (List.range 8).flatMap fun qi =>
    (List.range 8).map fun ii =>
      { I := coords.getD ii 0 * scale,
        Q := coords.getD qi 0 * scale,
        bits := gray3.getD ii "" ++ gray3.getD qi "" }

/-- `generateConstellation(scheme)` from `src/utils/modulation.ts`. -/
def generateConstellation : ModulationScheme → List ConstellationPoint
  | .BPSK => generateBPSK
  | .QPSK => generateQPSK
  | .PSK8 => generate8PSK
  | .QAM16 => generate16QAM
  | .QAM64 => generate64QAM

/-- Mean squared magnitude over a constellation, the quantity the spec's
invariant constrains to 1. -/
def meanSquaredMagnitude (l : List ConstellationPoint) : ℝ :=
  (l.map fun p => complexMagnitudeSquared p.toComplex).sum / l.length

-- =============================================================================
-- The Q-function (src/utils/math.ts)
-- =============================================================================

/-- The branch of `qFunction(x)` for `x ≥ 0`: underflow guard at `x > 8`, then
the Abramowitz–Stegun rational-polynomial approximation evaluated by Horner's
method, exactly as written in `src/utils/math.ts`. -/
def qFunctionBody (x : ℝ) : ℝ :=
  if x > 8 then 0
  else
    let t := 1 / (1 + 0.2316419 * x)
    let b1 : ℝ := 0.319381530
    let b2 : ℝ := -0.356563782
    let b3 : ℝ := 1.781477937
    let b4 : ℝ := -1.821255978
    let b5 : ℝ := 1.330274429
    let pdf := 0.3989422804014327 * Real.exp (-0.5 * x * x)
    let polynomial := t * (b1 + t * (b2 + t * (b3 + t * (b4 + t * b5))))
    pdf * polynomial

/-- `qFunction(x)` from `src/utils/math.ts`.  For `x < 0` the source makes one
recursive call `1 - qFunction(-x)` whose argument is positive, so that call
evaluates the non-negative branch `qFunctionBody`; the single unfolding here
is therefore exact. -/
def qFunction (x : ℝ) : ℝ :=
  if x < 0 then 1 - qFunctionBody (-x) else qFunctionBody x

-- =============================================================================
-- Theoretical BER formulas (src/utils/theory.ts)
-- =============================================================================

/-- `berBPSK(ebN0)` from `src/utils/theory.ts`: `Q(√(2·Eb/N0))`. -/
def berBPSK (ebN0 : ℝ) : ℝ :=
  qFunction (Real.sqrt (2 * ebN0))

/-- `berQPSK(ebN0)` from `src/utils/theory.ts`: same formula as BPSK. -/
def berQPSK (ebN0 : ℝ) : ℝ :=
  qFunction (Real.sqrt (2 * ebN0))

/-- `ber8PSK(ebN0)` from `src/utils/theory.ts`. -/
def ber8PSK (ebN0 : ℝ) : ℝ :=
  let M : ℝ := 8
  let k : ℝ := 3
  let sinPiOverM := Real.sin (Real.pi / M)
  let arg := Real.sqrt (2 * k * ebN0) * sinPiOverM
  (2 / k) * qFunction arg

/-- `ber16QAM(ebN0)` from `src/utils/theory.ts`. -/
def ber16QAM (ebN0 : ℝ) : ℝ :=
  let M : ℝ := 16
  let k : ℝ := 4
  let sqrtM : ℝ := 4
  let factor := (4 / k) * (1 - 1 / sqrtM)
  let arg := Real.sqrt ((3 * k * ebN0) / (M - 1))
  factor * qFunction arg

/-- `ber64QAM(ebN0)` from `src/utils/theory.ts`. -/
def ber64QAM (ebN0 : ℝ) : ℝ :=
  let M : ℝ := 64
  let k : ℝ := 6
  let sqrtM : ℝ := 8
  let factor := (4 / k) * (1 - 1 / sqrtM)
  let arg := Real.sqrt ((3 * k * ebN0) / (M - 1))
  factor * qFunction arg

/-- `theoreticalBER(scheme, ebN0Db)` from `src/utils/theory.ts`. -/
def theoreticalBER (scheme : ModulationScheme) (ebN0Db : ℝ) : ℝ :=
  let ebN0 := dbToLinear ebN0Db
  match scheme with
  | .BPSK => berBPSK ebN0
  | .QPSK => berQPSK ebN0
  | .PSK8 => ber8PSK ebN0
  | .QAM16 => ber16QAM ebN0
  | .QAM64 => ber64QAM ebN0

-- =============================================================================
-- Bit error counting (src/utils/modulation.ts)
-- =============================================================================

/-- `countBitErrors(transmitted, received)` from `src/utils/modulation.ts`:
positions at which the two arrays differ, or the thrown length-mismatch
error. -/
def countBitErrors (transmitted received : List ℕ) : Except String ℕ :=
  if transmitted.length ≠ received.length then
    .error "Bit arrays must have the same length"
  else
    .ok ((transmitted.zip received).countP fun p => p.1 ≠ p.2)

/-- `countBitErrorsFromStrings(transmitted, received)` from
`src/utils/modulation.ts`: the same scan over the characters of two
strings. -/
def countBitErrorsFromStrings (transmitted received : String) : Except String ℕ :=
  if transmitted.length ≠ received.length then
    .error "Bit strings must have the same length"
  else
    .ok ((transmitted.data.zip received.data).countP fun p => p.1 ≠ p.2)

end

-- =============================================================================
-- C1: constellation invariants
-- =============================================================================

lemma meanSq_BPSK : meanSquaredMagnitude (generateConstellation .BPSK) = 1 := by
  simp [meanSquaredMagnitude, generateConstellation, generateBPSK, complexMagnitudeSquared]

lemma meanSq_QPSK : meanSquaredMagnitude (generateConstellation .QPSK) = 1 := by
  have h2 : Real.sqrt 2 * Real.sqrt 2 = 2 := Real.mul_self_sqrt (by norm_num)
  have h2p : Real.sqrt 2 > 0 := Real.sqrt_pos.mpr (by norm_num)
  simp [meanSquaredMagnitude, generateConstellation, generateQPSK, complexMagnitudeSquared]
  field_simp
  nlinarith [h2]

lemma meanSq_PSK8 : meanSquaredMagnitude (generateConstellation .PSK8) = 1 := by
  have key : ∀ θ : ℝ, Real.cos θ * Real.cos θ + Real.sin θ * Real.sin θ = 1 := by
    intro θ
    have := Real.sin_sq_add_cos_sq θ
    nlinarith
  have h2 : Real.sqrt 2 * Real.sqrt 2 = 2 := Real.mul_self_sqrt (by norm_num)
  simp [meanSquaredMagnitude, generateConstellation, generate8PSK, complexMagnitudeSquared,
    complexFromPolar, List.range_succ, key]
  nlinarith [h2]

lemma meanSq_QAM16 : meanSquaredMagnitude (generateConstellation .QAM16) = 1 := by
  have h10 : Real.sqrt 10 * Real.sqrt 10 = 10 := Real.mul_self_sqrt (by norm_num)
  have h10p : Real.sqrt 10 > 0 := Real.sqrt_pos.mpr (by norm_num)
  simp [meanSquaredMagnitude, generateConstellation, generate16QAM, complexMagnitudeSquared,
    List.range_succ]
  field_simp
  nlinarith [h10]

set_option maxHeartbeats 1000000 in
lemma meanSq_QAM64 : meanSquaredMagnitude (generateConstellation .QAM64) = 1 := by
  have h42 : Real.sqrt 42 * Real.sqrt 42 = 42 := Real.mul_self_sqrt (by norm_num)
  have h42p : Real.sqrt 42 > 0 := Real.sqrt_pos.mpr (by norm_num)
  simp [meanSquaredMagnitude, generateConstellation, generate64QAM, complexMagnitudeSquared,
    List.range_succ]
  field_simp
  nlinarith [h42]

set_option maxHeartbeats 1000000 in
/-- C1: for every modulation scheme, `generateConstellation` returns exactly
`2 ^ k` points where `k` is the scheme's bits-per-symbol, every point's bit
label is a length-`k` string over the characters 0 and 1, the labels are
pairwise distinct, and the mean squared magnitude over all points equals 1
(exactly, in real arithmetic, hence within any floating-point tolerance). -/
theorem generateConstellation_invariants (scheme : ModulationScheme) :
    (generateConstellation scheme).length = 2 ^ BITS_PER_SYMBOL scheme
    ∧ (∀ s ∈ (generateConstellation scheme).map (fun p => p.bits),
        s.length = BITS_PER_SYMBOL scheme ∧ ∀ c ∈ s.data, c = '0' ∨ c = '1')
    ∧ ((generateConstellation scheme).map (fun p => p.bits)).Nodup
    ∧ meanSquaredMagnitude (generateConstellation scheme) = 1 := by
  cases scheme
  case BPSK => exact ⟨rfl, by decide, by decide, meanSq_BPSK⟩
  case QPSK => exact ⟨rfl, by decide, by decide, meanSq_QPSK⟩
  case PSK8 => exact ⟨rfl, by decide, by decide, meanSq_PSK8⟩
  case QAM16 => exact ⟨rfl, by decide, by decide, meanSq_QAM16⟩
  case QAM64 => exact ⟨rfl, by decide, by decide, meanSq_QAM64⟩

-- =============================================================================
-- C5: BPSK and QPSK theoretical BER coincide
-- =============================================================================

/-- C5: the BPSK and QPSK theoretical BER functions agree exactly at every
Eb/N0 value in dB. -/
theorem theoreticalBER_BPSK_eq_QPSK (ebN0Db : ℝ) :
    theoreticalBER .BPSK ebN0Db = theoreticalBER .QPSK ebN0Db := rfl

-- =============================================================================
-- C8: the value of the implemented Q-function at zero
-- =============================================================================

/-- C8 counterexample: the Abramowitz–Stegun approximation used by
`qFunction` does not return exactly one half at zero (its exact value there
is 0.49999999947519136, about 5.2e-10 below one half). -/
theorem qFunction_zero_ne_half : qFunction 0 ≠ 0.5 := by
  norm_num [qFunction, qFunctionBody, Real.exp_zero]

/-- C8 amended: `qFunction 0` equals one half to within 1e-9 (the accuracy
of the Abramowitz–Stegun approximation), though not exactly. -/
theorem qFunction_zero_near_half : |qFunction 0 - 0.5| < 1e-9 := by
  norm_num [qFunction, qFunctionBody, Real.exp_zero, abs_lt]

-- =============================================================================
-- C9: bit-error counting is a Hamming distance
-- =============================================================================

lemma countP_zip_comm (a b : List ℕ) :
    ((a.zip b).countP fun p => p.1 ≠ p.2) = ((b.zip a).countP fun p => p.1 ≠ p.2) := by
  induction a generalizing b with
  | nil => cases b <;> simp
  | cons x xs ih =>
    cases b with
    | nil => simp
    | cons y ys =>
      simp only [List.zip_cons_cons, List.countP_cons, ih ys]
      congr 1
      by_cases hxy : x = y
      · simp [hxy]
      · simp [hxy, Ne.symm hxy]

lemma countP_zip_eq_zero_iff (a b : List ℕ) (h : a.length = b.length) :
    (((a.zip b).countP fun p => p.1 ≠ p.2) = 0 ↔ a = b) := by
  induction a generalizing b with
  | nil =>
    cases b with
    | nil => simp
    | cons y ys => simp at h
  | cons x xs ih =>
    cases b with
    | nil => simp at h
    | cons y ys =>
      simp only [List.length_cons, Nat.succ_inj] at h
      simp only [List.zip_cons_cons, List.countP_cons, Nat.add_eq_zero, List.cons.injEq]
      rw [ih ys h]
      by_cases hxy : x = y
      · simp [hxy]
      · simp [hxy]

/-- C9: `countBitErrors` is symmetric, it succeeds exactly when the two bit
arrays have equal length, its value is zero exactly when the inputs are
identical, and the string variant fails on the length-mismatched example
`("101", "10")`. -/
theorem countBitErrors_spec :
    (∀ a b : List ℕ,
      countBitErrors a b = countBitErrors b a
      ∧ ((∃ n, countBitErrors a b = .ok n) ↔ a.length = b.length)
      ∧ (countBitErrors a b = .ok 0 ↔ a = b))
    ∧ countBitErrorsFromStrings "101" "10" =
        .error "Bit strings must have the same length" := by
  constructor
  · intro a b
    refine ⟨?_, ?_, ?_⟩
    · by_cases h : a.length = b.length
      · simp only [countBitErrors]
        rw [if_neg (by omega), if_neg (by omega)]
        exact congrArg _ (countP_zip_comm a b)
      · simp only [countBitErrors]
        rw [if_pos (by omega), if_pos (by omega)]
    · constructor
      · rintro ⟨n, hn⟩
        by_contra hne
        simp only [countBitErrors] at hn
        rw [if_pos (by omega)] at hn
        exact absurd hn (by simp)
      · intro h
        refine ⟨(a.zip b).countP fun p => p.1 ≠ p.2, ?_⟩
        simp only [countBitErrors]
        rw [if_neg (by omega)]
    · by_cases h : a.length = b.length
      · simp only [countBitErrors]
        rw [if_neg (by omega)]
        simp only [Except.ok.injEq]
        exact countP_zip_eq_zero_iff a b h
      · simp only [countBitErrors]
        rw [if_pos (by omega)]
        constructor
        · intro hc
          exact absurd hc (by simp)
        · intro hab
          subst hab
          exact absurd rfl h
  · rfl

noncomputable section

/-- The body of the minimum-distance scan shared by `symbolToBits` and
`demodulate`: keep the running minimum squared distance, updating on strict
decrease.  `none` models the JavaScript initial value `Infinity` (every real
distance compares below it).  `f` is what the loop records for the best
point so far: the point itself in `symbolToBits`, its bit label in
`demodulate`. -/
def minDistStep {α : Type} (symbol : Complex) (f : ConstellationPoint → α) :
    α × Option ℝ → ConstellationPoint → α × Option ℝ :=
  fun acc point =>
    match acc.2 with
    | none => (f point, some (complexDistanceSquared symbol point.toComplex))
    | some d =>
      if complexDistanceSquared symbol point.toComplex < d then
        (f point, some (complexDistanceSquared symbol point.toComplex))
      else acc

/-- `symbolToBits(symbol, constellation)` from `src/utils/modulation.ts`. -/
def symbolToBits (symbol : Complex) (constellation : List ConstellationPoint) : String :=
  (constellation.foldl (minDistStep symbol id)
    (constellation.headD default, none)).1.bits

/-- The per-symbol decision of `demodulate` from `src/utils/modulation.ts`. -/
def demodDecide (symbol : Complex) (constellation : List ConstellationPoint) : String :=
  (constellation.foldl (minDistStep symbol (fun p => p.bits))
    ((constellation.headD default).bits, none)).1

/-- `demodulate(received, constellation)` from `src/utils/modulation.ts`. -/
def demodulate (received : List Complex) (constellation : List ConstellationPoint) :
    List String :=
  received.map fun symbol => demodDecide symbol constellation

end

lemma distSq_nonneg (a b : Complex) : 0 ≤ complexDistanceSquared a b := by
  simp only [complexDistanceSquared]
  nlinarith [sq_nonneg (a.I - b.I), sq_nonneg (a.Q - b.Q)]

lemma distSq_self (a : Complex) : complexDistanceSquared a a = 0 := by
  simp [complexDistanceSquared]

lemma distSq_eq_zero_iff (a b : Complex) :
    complexDistanceSquared a b = 0 ↔ a.I = b.I ∧ a.Q = b.Q := by
  simp only [complexDistanceSquared]
  constructor
  · intro h
    constructor <;> nlinarith [sq_nonneg (a.I - b.I), sq_nonneg (a.Q - b.Q)]
  · rintro ⟨h1, h2⟩
    simp [h1, h2]

lemma minDistStep_foldl_spec {α : Type} (symbol : Complex)
    (f : ConstellationPoint → α) (l : List ConstellationPoint) (a : α) (d : ℝ) :
    ∃ d2, (l.foldl (minDistStep symbol f) (a, some d)).2 = some d2 ∧ d2 ≤ d
      ∧ (∀ q ∈ l, d2 ≤ complexDistanceSquared symbol q.toComplex)
      ∧ (((l.foldl (minDistStep symbol f) (a, some d)).1 = a ∧ d2 = d)
          ∨ ∃ q ∈ l, (l.foldl (minDistStep symbol f) (a, some d)).1 = f q
              ∧ d2 = complexDistanceSquared symbol q.toComplex) := by
  induction l generalizing a d with
  | nil => exact ⟨d, rfl, le_refl d, by simp, Or.inl ⟨rfl, rfl⟩⟩
  | cons p t ih =>
    by_cases h : complexDistanceSquared symbol p.toComplex < d
    · have hstep : minDistStep symbol f (a, some d) p =
          (f p, some (complexDistanceSquared symbol p.toComplex)) := by
        simp [minDistStep, h]
      obtain ⟨d2, h1, h2, h3, h4⟩ := ih (f p) (complexDistanceSquared symbol p.toComplex)
      refine ⟨d2, ?_, ?_, ?_, ?_⟩
      · simpa [hstep] using h1
      · exact le_trans h2 (le_of_lt h)
      · intro q hq
        rcases List.mem_cons.mp hq with rfl | hq2
        · exact h2
        · exact h3 q hq2
      · rcases h4 with ⟨he, hd⟩ | ⟨q, hq, he, hd⟩
        · refine Or.inr ⟨p, List.mem_cons_self p t, ?_, hd⟩
          simpa [hstep] using he
        · refine Or.inr ⟨q, List.mem_cons_of_mem p hq, ?_, hd⟩
          simpa [hstep] using he
    · have hstep : minDistStep symbol f (a, some d) p = (a, some d) := by
        simp [minDistStep, h]
      obtain ⟨d2, h1, h2, h3, h4⟩ := ih a d
      refine ⟨d2, ?_, h2, ?_, ?_⟩
      · simpa [hstep] using h1
      · intro q hq
        rcases List.mem_cons.mp hq with rfl | hq2
        · exact le_trans h2 (not_lt.mp h)
        · exact h3 q hq2
      · rcases h4 with ⟨he, hd⟩ | ⟨q, hq, he, hd⟩
        · exact Or.inl ⟨by simpa [hstep] using he, hd⟩
        · refine Or.inr ⟨q, List.mem_cons_of_mem p hq, ?_, hd⟩
          simpa [hstep] using he

/-- On a nonempty constellation the minimum-distance scan returns the record
of some point achieving the minimal squared distance. -/
lemma minDistScan_spec {α : Type} (symbol : Complex)
    (f : ConstellationPoint → α) (p0 : ConstellationPoint) (t : List ConstellationPoint)
    (a0 : α) :
    ∃ q ∈ p0 :: t, ((p0 :: t).foldl (minDistStep symbol f) (a0, none)).1 = f q
      ∧ ∀ r ∈ p0 :: t,
          complexDistanceSquared symbol q.toComplex
            ≤ complexDistanceSquared symbol r.toComplex := by
  have hstep : minDistStep symbol f (a0, none) p0 =
      (f p0, some (complexDistanceSquared symbol p0.toComplex)) := rfl
  have hfold : (p0 :: t).foldl (minDistStep symbol f) (a0, none) =
      t.foldl (minDistStep symbol f)
        (f p0, some (complexDistanceSquared symbol p0.toComplex)) := by
    simp [List.foldl_cons, hstep]
  obtain ⟨d2, h1, h2, h3, h4⟩ :=
    minDistStep_foldl_spec symbol f t (f p0) (complexDistanceSquared symbol p0.toComplex)
  rcases h4 with ⟨he, hd⟩ | ⟨q, hq, he, hd⟩
  · refine ⟨p0, List.mem_cons_self p0 t, by rw [hfold]; exact he, ?_⟩
    intro r hr
    rcases List.mem_cons.mp hr with rfl | hr2
    · exact le_refl _
    · rw [← hd]
      exact h3 r hr2
  · refine ⟨q, List.mem_cons_of_mem p0 hq, by rw [hfold]; exact he, ?_⟩
    intro r hr
    rcases List.mem_cons.mp hr with rfl | hr2
    · rw [← hd]
      exact h2
    · rw [← hd]
      exact h3 r hr2

/-- Pairwise distinctness of coordinates within a constellation. -/
def NoDupCoords (l : List ConstellationPoint) : Prop :=
  ∀ p ∈ l, ∀ q ∈ l, p.I = q.I → p.Q = q.Q → p = q

set_option maxRecDepth 4096 in
lemma noDupCoords_BPSK : NoDupCoords generateBPSK := by
  intro p hp q hq hI hQ
  fin_cases hp <;> fin_cases hq <;> first | rfl | (exfalso; norm_num at hI hQ)

set_option maxRecDepth 4096 in
lemma noDupCoords_QPSK : NoDupCoords generateQPSK := by
  have h2 : (0:ℝ) < Real.sqrt 2 := Real.sqrt_pos.mpr (by norm_num)
  intro p hp q hq hI hQ
  fin_cases hp <;> fin_cases hq <;>
    first
      | rfl
      | (exfalso; simp at hI hQ; all_goals nlinarith [inv_pos.mpr h2])


lemma generate8PSK_eq :
    generate8PSK =
      [ ⟨⟨1, 0⟩, "000"⟩,
        ⟨⟨Real.sqrt 2 / 2, Real.sqrt 2 / 2⟩, "001"⟩,
        ⟨⟨0, 1⟩, "011"⟩,
        ⟨⟨-(Real.sqrt 2 / 2), Real.sqrt 2 / 2⟩, "010"⟩,
        ⟨⟨-1, 0⟩, "110"⟩,
        ⟨⟨-(Real.sqrt 2 / 2), -(Real.sqrt 2 / 2)⟩, "111"⟩,
        ⟨⟨0, -1⟩, "101"⟩,
        ⟨⟨Real.sqrt 2 / 2, -(Real.sqrt 2 / 2)⟩, "100"⟩ ] := by
  have e2 : (2 : ℝ) * Real.pi / 4 = Real.pi / 2 := by ring
  have e3 : (3 : ℝ) * Real.pi / 4 = Real.pi - Real.pi / 4 := by ring
  have e4 : (4 : ℝ) * Real.pi / 4 = Real.pi := by ring
  have e5 : (5 : ℝ) * Real.pi / 4 = Real.pi / 4 + Real.pi := by ring
  have e6 : (6 : ℝ) * Real.pi / 4 = Real.pi / 2 + Real.pi := by ring
  have e7 : (7 : ℝ) * Real.pi / 4 = -(Real.pi / 4) + 2 * Real.pi := by ring
  simp [generate8PSK, complexFromPolar, List.range_succ, e2, e3, e4, e5, e6, e7,
    Real.cos_pi_sub, Real.sin_pi_sub, Real.cos_add_pi, Real.sin_add_pi,
    Real.cos_pi_div_four, Real.sin_pi_div_four, Real.cos_pi_div_two, Real.sin_pi_div_two,
    Real.cos_add_two_pi, Real.sin_add_two_pi, Real.cos_neg, Real.sin_neg]

set_option maxRecDepth 8192 in
set_option maxHeartbeats 1000000 in
lemma noDupCoords_PSK8 : NoDupCoords generate8PSK := by
  have h2 : (0:ℝ) < Real.sqrt 2 := Real.sqrt_pos.mpr (by norm_num)
  have h2b : Real.sqrt 2 < 2 := by
    nlinarith [Real.sq_sqrt (show (0:ℝ) ≤ 2 by norm_num), Real.sqrt_nonneg 2]
  rw [generate8PSK_eq]
  intro p hp q hq hI hQ
  fin_cases hp <;> fin_cases hq <;>
    first
      | rfl
      | (exfalso; simp at hI hQ; all_goals nlinarith [h2, h2b])

lemma grid_noDupCoords (n : ℕ) (f : ℕ → ℝ) (g : ℕ → String)
    (hf : ∀ i, i < n → ∀ j, j < n → f i = f j → i = j) :
    NoDupCoords ((List.range n).flatMap fun qi => (List.range n).map fun ii =>
      { I := f ii, Q := f qi, bits := g ii ++ g qi }) := by
  intro p hp q hq hI hQ
  simp only [List.mem_flatMap, List.mem_map, List.mem_range] at hp hq
  obtain ⟨qi, hqi, ii, hii, rfl⟩ := hp
  obtain ⟨qj, hqj, ij, hij, rfl⟩ := hq
  simp only at hI hQ
  have h1 : ii = ij := hf ii hii ij hij hI
  have h2 : qi = qj := hf qi hqi qj hqj hQ
  rw [h1, h2]

lemma noDupCoords_QAM16 : NoDupCoords generate16QAM := by
  have h10 : (0:ℝ) < Real.sqrt 10 := Real.sqrt_pos.mpr (by norm_num)
  have key : ∀ i, i < 4 → ∀ j, j < 4 →
      ([(-3:ℝ), -1, 1, 3].getD i 0 * (1 / Real.sqrt 10)
        = [(-3:ℝ), -1, 1, 3].getD j 0 * (1 / Real.sqrt 10)) → i = j := by
    intro i hi j hj h
    have hs : (1 / Real.sqrt 10 : ℝ) ≠ 0 := by positivity
    have h2 := mul_right_cancel₀ hs h
    interval_cases i <;> interval_cases j <;> first | rfl | (exfalso; norm_num at h2)
  exact grid_noDupCoords 4
    (fun i => [(-3:ℝ), -1, 1, 3].getD i 0 * (1 / Real.sqrt 10))
    (fun i => ["00", "01", "11", "10"].getD i "") key

set_option maxHeartbeats 1000000 in
lemma noDupCoords_QAM64 : NoDupCoords generate64QAM := by
  have h42 : (0:ℝ) < Real.sqrt 42 := Real.sqrt_pos.mpr (by norm_num)
  have key : ∀ i, i < 8 → ∀ j, j < 8 →
      ([(-7:ℝ), -5, -3, -1, 1, 3, 5, 7].getD i 0 * (1 / Real.sqrt 42)
        = [(-7:ℝ), -5, -3, -1, 1, 3, 5, 7].getD j 0 * (1 / Real.sqrt 42)) → i = j := by
    intro i hi j hj h
    have hs : (1 / Real.sqrt 42 : ℝ) ≠ 0 := by positivity
    have h2 := mul_right_cancel₀ hs h
    interval_cases i <;> interval_cases j <;> first | rfl | (exfalso; norm_num at h2)
  exact grid_noDupCoords 8
    (fun i => [(-7:ℝ), -5, -3, -1, 1, 3, 5, 7].getD i 0 * (1 / Real.sqrt 42))
    (fun i => ["000", "001", "011", "010", "110", "111", "101", "100"].getD i "") key

lemma demodDecide_roundtrip (c : List ConstellationPoint) (p : ConstellationPoint)
    (hp : p ∈ c) (hnd : NoDupCoords c) : demodDecide p.toComplex c = p.bits := by
  cases c with
  | nil => exact absurd hp (List.not_mem_nil p)
  | cons p0 t =>
    obtain ⟨q, hq, he, hmin⟩ :=
      minDistScan_spec p.toComplex (fun r => r.bits) p0 t (((p0 :: t).headD default).bits)
    have h1 := hmin p hp
    rw [distSq_self] at h1
    have h2 := distSq_nonneg p.toComplex q.toComplex
    have hD : complexDistanceSquared p.toComplex q.toComplex = 0 := le_antisymm h1 h2
    obtain ⟨hI, hQ⟩ := (distSq_eq_zero_iff _ _).mp hD
    have hpq : p = q := hnd p hp q hq hI hQ
    simp only [demodDecide]
    rw [he, ← hpq]

set_option maxRecDepth 4096 in
/-- C2: round-trip through the demodulator is the identity on ideal points.
For every scheme and every point of its constellation, demodulating the
point against that constellation returns exactly its own bit label. -/
theorem demodulate_roundtrip (scheme : ModulationScheme) (p : ConstellationPoint)
    (hp : p ∈ generateConstellation scheme) :
    demodulate [p.toComplex] (generateConstellation scheme) = [p.bits] := by
  have hnd : NoDupCoords (generateConstellation scheme) := by
    cases scheme
    exacts [noDupCoords_BPSK, noDupCoords_QPSK, noDupCoords_PSK8,
      noDupCoords_QAM16, noDupCoords_QAM64]
  simp only [demodulate, List.map]
  rw [demodDecide_roundtrip _ p hp hnd]

/-- C2 witness: the concrete round trip of the first BPSK point. -/
theorem demodulate_roundtrip_witness :
    demodulate [ConstellationPoint.toComplex ⟨⟨1, 0⟩, "0"⟩]
      (generateConstellation .BPSK) = ["0"] :=
  demodulate_roundtrip .BPSK ⟨⟨1, 0⟩, "0"⟩ (List.mem_cons_self _ _)

noncomputable section

/-- The bit-string → point index built once per `modulateBits` call.
JavaScript `Map.set` lets the last insertion win on duplicate labels, hence
the lookup scans the reversed list. -/
def bitMapGet (constellation : List ConstellationPoint) (g : String) :
    Option ConstellationPoint :=
  constellation.reverse.find? fun point => point.bits == g

/-- The per-group body of the `modulateBits` loop, processing the complete
bit groups left to right: look each group up in the index, push the
corresponding I/Q pair, or throw `Invalid bit pattern` at the first
unrecognized group. -/
def modulateLoop (constellation : List ConstellationPoint) :
    List (List ℕ) → Except String (List Complex)
  | [] => .ok []
  | g :: rest =>
    match bitMapGet constellation (joinBits g) with
    | some point =>
      match modulateLoop constellation rest with
      | .ok symbols => .ok (⟨point.I, point.Q⟩ :: symbols)
      | .error e => .error e
    | none => .error ("Invalid bit pattern: " ++ joinBits g)

/-- `modulateBits(bits, constellation)` from `src/utils/modulation.ts`:
group size is the label length of the first constellation point, trailing
bits are dropped by the loop bound `i + bitsPerSymbol <= bits.length`. -/
def modulateBits (bits : List ℕ) (constellation : List ConstellationPoint) :
    Except String (List Complex) :=
  let bitsPerSymbol := (constellation.headD default).bits.length
  modulateLoop constellation (fullChunks bitsPerSymbol bits)

end

lemma fullChunks_length (k : ℕ) (hk : 0 < k) (l : List ℕ) :
    (fullChunks k l).length = l.length / k := by
  induction l using fullChunks.induct k with
  | case1 l h ih =>
    rw [fullChunks, dif_pos h, List.length_cons, ih, List.length_drop,
      Nat.div_eq_sub_div hk h.2]
  | case2 l h =>
    rw [fullChunks, dif_neg h]
    have : l.length < k := by omega
    simp [Nat.div_eq_of_lt this]

lemma fullChunks_mem (k : ℕ) (l : List ℕ) :
    ∀ c ∈ fullChunks k l, c.length = k ∧ ∀ b ∈ c, b ∈ l := by
  induction l using fullChunks.induct k with
  | case1 l h ih =>
    rw [fullChunks, dif_pos h]
    intro c hc
    rcases List.mem_cons.mp hc with rfl | hc2
    · exact ⟨List.length_take_of_le h.2, fun b hb => List.mem_of_mem_take hb⟩
    · obtain ⟨h1, h2⟩ := ih c hc2
      exact ⟨h1, fun b hb => List.mem_of_mem_drop (h2 b hb)⟩
  | case2 l h =>
    rw [fullChunks, dif_neg h]
    intro c hc
    exact absurd hc (List.not_mem_nil c)


lemma joinBits_foldl_mem (c : List ℕ) (hb : ∀ b ∈ c, b = 0 ∨ b = 1) :
    ∀ (m : ℕ) (acc : String), acc ∈ allBitStrings m →
      c.foldl (fun s b => s ++ Nat.repr b) acc ∈ allBitStrings (m + c.length) := by
  induction c with
  | nil => intro m acc hacc; simpa using hacc
  | cons b rest ih =>
    intro m acc hacc
    have hstep : acc ++ Nat.repr b ∈ allBitStrings (m + 1) := by
      rw [allBitStrings]
      rcases hb b (List.mem_cons_self b rest) with rfl | rfl
      · exact List.mem_flatMap.mpr ⟨acc, hacc, by exact List.mem_cons_self _ _⟩
      · exact List.mem_flatMap.mpr ⟨acc, hacc, by right; exact List.mem_cons_self _ _⟩
    have := ih (fun x hx => hb x (List.mem_cons_of_mem b hx)) (m + 1) (acc ++ Nat.repr b) hstep
    simpa [Nat.add_assoc, Nat.add_comm 1 rest.length, List.length_cons] using this

lemma joinBits_mem_allBitStrings (c : List ℕ) (hb : ∀ b ∈ c, b = 0 ∨ b = 1) :
    joinBits c ∈ allBitStrings c.length := by
  have := joinBits_foldl_mem c hb 0 "" (by simp [allBitStrings])
  simpa [joinBits] using this

lemma labels_cover (scheme : ModulationScheme) :
    ∀ s ∈ allBitStrings (BITS_PER_SYMBOL scheme),
      s ∈ (generateConstellation scheme).map fun p => p.bits := by
  cases scheme
  case BPSK => decide
  case QPSK => decide
  case PSK8 => decide
  case QAM16 => decide
  case QAM64 => decide

lemma bitMapGet_isSome (c : List ConstellationPoint) (g : String)
    (h : g ∈ c.map fun p => p.bits) : ∃ point, bitMapGet c g = some point := by
  obtain ⟨p, hp, rfl⟩ := List.mem_map.mp h
  have : ∃ x ∈ c.reverse, (fun point => point.bits == p.bits) x := by
    exact ⟨p, List.mem_reverse.mpr hp, by simp⟩
  obtain ⟨q, hq⟩ := Option.isSome_iff_exists.mp (List.find?_isSome.mpr this)
  exact ⟨q, hq⟩

lemma modulateLoop_ok (c : List ConstellationPoint) (groups : List (List ℕ))
    (h : ∀ g ∈ groups, ∃ point, bitMapGet c (joinBits g) = some point) :
    ∃ symbols, modulateLoop c groups = .ok symbols ∧ symbols.length = groups.length := by
  induction groups with
  | nil => exact ⟨[], rfl, rfl⟩
  | cons g rest ih =>
    obtain ⟨point, hpoint⟩ := h g (List.mem_cons_self g rest)
    obtain ⟨symbols, h1, h2⟩ := ih fun x hx => h x (List.mem_cons_of_mem g hx)
    refine ⟨⟨point.I, point.Q⟩ :: symbols, ?_, by simp [h2]⟩
    rw [modulateLoop, hpoint, h1]

lemma headBits_len (scheme : ModulationScheme) :
    ((generateConstellation scheme).headD default).bits.length = BITS_PER_SYMBOL scheme := by
  cases scheme <;> rfl

lemma modulateBits_ok (scheme : ModulationScheme) (bits : List ℕ)
    (hb : ∀ b ∈ bits, b = 0 ∨ b = 1) :
    ∃ symbols, modulateBits bits (generateConstellation scheme) = .ok symbols
      ∧ symbols.length = bits.length / BITS_PER_SYMBOL scheme := by
  have hk : 0 < BITS_PER_SYMBOL scheme := by cases scheme <;> decide
  have hlen := headBits_len scheme
  have hcover : ∀ g ∈ fullChunks (BITS_PER_SYMBOL scheme) bits,
      ∃ point, bitMapGet (generateConstellation scheme) (joinBits g) = some point := by
    intro g hg
    obtain ⟨hglen, hgmem⟩ := fullChunks_mem _ _ g hg
    apply bitMapGet_isSome
    have := joinBits_mem_allBitStrings g fun b hbg => hb b (hgmem b hbg)
    rw [hglen] at this
    exact labels_cover scheme _ this
  obtain ⟨symbols, h1, h2⟩ := modulateLoop_ok (generateConstellation scheme)
    (fullChunks (BITS_PER_SYMBOL scheme) bits) hcover
  refine ⟨symbols, ?_, ?_⟩
  · rw [modulateBits]
    rw [hlen]
    exact h1
  · rw [h2, fullChunks_length _ hk]

/-- C3: for every scheme and every 0/1 bit list, `modulateBits` never throws
(the generated alphabet covers all combinations) and returns exactly
`⌊length/k⌋` symbols, dropping trailing bits that do not fill a group. -/
theorem modulateBits_total (scheme : ModulationScheme) (bits : List ℕ)
    (hb : ∀ b ∈ bits, b = 0 ∨ b = 1) :
    ∃ symbols, modulateBits bits (generateConstellation scheme) = .ok symbols
      ∧ symbols.length = bits.length / BITS_PER_SYMBOL scheme :=
  modulateBits_ok scheme bits hb

/-- C3 witness: three bits through QPSK give exactly one symbol. -/
theorem modulateBits_total_witness :
    (∀ b ∈ [0, 1, 1], b = 0 ∨ b = 1)
    ∧ ∃ symbols, modulateBits [0, 1, 1] (generateConstellation .QPSK) = .ok symbols
        ∧ symbols.length = [0, 1, 1].length / BITS_PER_SYMBOL .QPSK :=
  ⟨by decide, modulateBits_total .QPSK [0, 1, 1] (by decide)⟩

noncomputable section

/-- The Abramowitz–Stegun degree-5 polynomial of `qFunctionBody`, as a
function of `t = 1/(1 + 0.2316419 x)`. -/
def asPoly (t : ℝ) : ℝ :=
  t * (0.319381530 + t * (-0.356563782 + t * (1.781477937 + t * (-1.821255978 + t * 1.330274429))))

end

lemma asPoly_mono (t1 t2 : ℝ) (h0 : 0 ≤ t1) (h12 : t1 ≤ t2) (h21 : t2 ≤ 1) :
    asPoly t1 ≤ asPoly t2 := by
  simp only [asPoly]
  nlinarith [mul_nonneg h0 (sub_nonneg.mpr h12), mul_nonneg (sub_nonneg.mpr h12) (sub_nonneg.mpr h21),
    sq_nonneg (t1 + t2), sq_nonneg (t1 - t2), sq_nonneg t1, sq_nonneg t2,
    mul_nonneg (mul_nonneg h0 h0) (sub_nonneg.mpr h12),
    mul_nonneg (mul_nonneg (sub_nonneg.mpr h12) (sub_nonneg.mpr h21)) (mul_nonneg h0 h0),
    mul_nonneg (mul_nonneg (sub_nonneg.mpr h12) (sub_nonneg.mpr h21)) (mul_nonneg (sub_nonneg.mpr h12) (sub_nonneg.mpr h21)),
    mul_nonneg (mul_nonneg h0 (sub_nonneg.mpr h12)) (sub_nonneg.mpr h21),
    mul_nonneg (mul_nonneg (mul_nonneg h0 h0) h0) (sub_nonneg.mpr h12)]

lemma asPoly_nonneg (t : ℝ) (h0 : 0 ≤ t) (h1 : t ≤ 1) : 0 ≤ asPoly t := by
  have := asPoly_mono 0 t le_rfl h0 h1
  simpa [asPoly] using this

lemma qFunctionBody_eq (x : ℝ) (h : ¬ x > 8) :
    qFunctionBody x =
      0.3989422804014327 * Real.exp (-0.5 * x * x) * asPoly (1 / (1 + 0.2316419 * x)) := by
  rw [qFunctionBody, if_neg h, asPoly]

lemma tparam_pos (x : ℝ) (hx : 0 ≤ x) : 0 < 1 / (1 + 0.2316419 * x) := by
  have : (0:ℝ) < 1 + 0.2316419 * x := by nlinarith
  positivity

lemma tparam_le_one (x : ℝ) (hx : 0 ≤ x) : 1 / (1 + 0.2316419 * x) ≤ 1 := by
  rw [div_le_one (by nlinarith)]
  nlinarith

lemma tparam_anti (x y : ℝ) (hx : 0 ≤ x) (hxy : x ≤ y) :
    1 / (1 + 0.2316419 * y) ≤ 1 / (1 + 0.2316419 * x) := by
  apply one_div_le_one_div_of_le
  · nlinarith
  · nlinarith

lemma qFunctionBody_nonneg (x : ℝ) (hx : 0 ≤ x) : 0 ≤ qFunctionBody x := by
  by_cases h : x > 8
  · rw [qFunctionBody, if_pos h]
  · rw [qFunctionBody_eq x h]
    have h1 : (0:ℝ) < 0.3989422804014327 * Real.exp (-0.5 * x * x) := by positivity
    have h2 := asPoly_nonneg _ (le_of_lt (tparam_pos x hx)) (tparam_le_one x hx)
    exact mul_nonneg (le_of_lt h1) h2

lemma qFunctionBody_le_half (x : ℝ) (hx : 0 ≤ x) : qFunctionBody x ≤ 0.5 := by
  by_cases h : x > 8
  · rw [qFunctionBody, if_pos h]
    norm_num
  · rw [qFunctionBody_eq x h]
    have hexp : Real.exp (-0.5 * x * x) ≤ 1 := by
      rw [Real.exp_le_one_iff]
      nlinarith
    have hexp0 : (0:ℝ) ≤ Real.exp (-0.5 * x * x) := le_of_lt (Real.exp_pos _)
    have hp1 : asPoly (1 / (1 + 0.2316419 * x)) ≤ asPoly 1 :=
      asPoly_mono _ 1 (le_of_lt (tparam_pos x hx)) (tparam_le_one x hx) le_rfl
    have hp0 : 0 ≤ asPoly (1 / (1 + 0.2316419 * x)) :=
      asPoly_nonneg _ (le_of_lt (tparam_pos x hx)) (tparam_le_one x hx)
    have hval : asPoly 1 = 1.253314136 := by
      norm_num [asPoly]
    nlinarith [mul_le_mul (mul_le_mul_of_nonneg_left hexp (by norm_num : (0:ℝ) ≤ 0.3989422804014327)) hp1 hp0 (by norm_num)]

lemma qFunctionBody_anti (x y : ℝ) (hx : 0 ≤ x) (hxy : x ≤ y) :
    qFunctionBody y ≤ qFunctionBody x := by
  have hy : 0 ≤ y := le_trans hx hxy
  by_cases hy8 : y > 8
  · rw [qFunctionBody, if_pos hy8]
    exact qFunctionBody_nonneg x hx
  · have hx8 : ¬ x > 8 := by
      intro hc
      exact hy8 (lt_of_lt_of_le hc hxy)
    rw [qFunctionBody_eq x hx8, qFunctionBody_eq y hy8]
    have hexp : Real.exp (-0.5 * y * y) ≤ Real.exp (-0.5 * x * x) := by
      rw [Real.exp_le_exp]
      nlinarith
    have hexp0 : (0:ℝ) ≤ Real.exp (-0.5 * y * y) := le_of_lt (Real.exp_pos _)
    have hpmono : asPoly (1 / (1 + 0.2316419 * y)) ≤ asPoly (1 / (1 + 0.2316419 * x)) :=
      asPoly_mono _ _ (le_of_lt (tparam_pos y hy)) (tparam_anti x y hx hxy) (tparam_le_one x hx)
    have hp0 : 0 ≤ asPoly (1 / (1 + 0.2316419 * y)) :=
      asPoly_nonneg _ (le_of_lt (tparam_pos y hy)) (tparam_le_one y hy)
    have hc : (0:ℝ) ≤ 0.3989422804014327 := by norm_num
    calc 0.3989422804014327 * Real.exp (-0.5 * y * y) * asPoly (1 / (1 + 0.2316419 * y))
        ≤ 0.3989422804014327 * Real.exp (-0.5 * x * x) * asPoly (1 / (1 + 0.2316419 * x)) := by
          apply mul_le_mul
          · exact mul_le_mul_of_nonneg_left hexp hc
          · exact hpmono
          · exact hp0
          · positivity

lemma qFunction_anti_nonneg (x y : ℝ) (hx : 0 ≤ x) (hxy : x ≤ y) :
    qFunction y ≤ qFunction x := by
  rw [qFunction, qFunction, if_neg (not_lt.mpr (le_trans hx hxy)), if_neg (not_lt.mpr hx)]
  exact qFunctionBody_anti x y hx hxy

/-- C10: the implemented Q-function always returns a valid probability:
`qFunction x ∈ [0, 1]` for every real `x`. -/
theorem qFunction_mem_unit (x : ℝ) : 0 ≤ qFunction x ∧ qFunction x ≤ 1 := by
  by_cases hx : x < 0
  · rw [qFunction, if_pos hx]
    have hnn : (0:ℝ) ≤ -x := by linarith
    have h1 := qFunctionBody_nonneg (-x) hnn
    have h2 := qFunctionBody_le_half (-x) hnn
    constructor <;> linarith
  · rw [qFunction, if_neg hx]
    have hnn : (0:ℝ) ≤ x := not_lt.mp hx
    have h1 := qFunctionBody_nonneg x hnn
    have h2 := qFunctionBody_le_half x hnn
    constructor <;> linarith


lemma dbToLinear_mono (x y : ℝ) (hxy : x ≤ y) : dbToLinear x ≤ dbToLinear y := by
  rw [dbToLinear, dbToLinear]
  apply Real.rpow_le_rpow_left_iff (by norm_num : (1:ℝ) < 10) |>.mpr
  linarith

lemma dbToLinear_pos (x : ℝ) : 0 < dbToLinear x := by
  rw [dbToLinear]
  exact Real.rpow_pos_of_pos (by norm_num) _

lemma qFunction_sqrt_anti (c ex ey : ℝ) (hc : 0 ≤ c) (hex : 0 ≤ ex) (hxy : ex ≤ ey) :
    qFunction (Real.sqrt (c * ey)) ≤ qFunction (Real.sqrt (c * ex)) :=
  qFunction_anti_nonneg _ _ (Real.sqrt_nonneg _)
    (Real.sqrt_le_sqrt (mul_le_mul_of_nonneg_left hxy hc))

lemma theoreticalBER_anti (scheme : ModulationScheme) (x y : ℝ) (hxy : x ≤ y) :
    theoreticalBER scheme y ≤ theoreticalBER scheme x := by
  have hex : 0 < dbToLinear x := dbToLinear_pos x
  have hmono : dbToLinear x ≤ dbToLinear y := dbToLinear_mono x y hxy
  cases scheme
  case BPSK =>
    exact qFunction_sqrt_anti 2 _ _ (by norm_num) (le_of_lt hex) hmono
  case QPSK =>
    exact qFunction_sqrt_anti 2 _ _ (by norm_num) (le_of_lt hex) hmono
  case PSK8 =>
    simp only [theoreticalBER, ber8PSK]
    have hsin : 0 < Real.sin (Real.pi / 8) := by
      apply Real.sin_pos_of_pos_of_lt_pi
      · positivity
      · nlinarith [Real.pi_pos]
    have harg : Real.sqrt (2 * 3 * dbToLinear y) * Real.sin (Real.pi / 8)
        ≥ 0 := mul_nonneg (Real.sqrt_nonneg _) (le_of_lt hsin)
    have hargle : Real.sqrt (2 * 3 * dbToLinear x) * Real.sin (Real.pi / 8)
        ≤ Real.sqrt (2 * 3 * dbToLinear y) * Real.sin (Real.pi / 8) := by
      apply mul_le_mul_of_nonneg_right _ (le_of_lt hsin)
      exact Real.sqrt_le_sqrt (by nlinarith)
    have hq := qFunction_anti_nonneg _ _
      (mul_nonneg (Real.sqrt_nonneg _) (le_of_lt hsin)) hargle
    nlinarith [hq]
  case QAM16 =>
    simp only [theoreticalBER, ber16QAM]
    have hq := qFunction_sqrt_anti (3 * 4 / (16 - 1)) _ _ (by norm_num)
      (le_of_lt hex) hmono
    have e1 : 3 * 4 * dbToLinear x / (16 - 1) = 3 * 4 / (16 - 1) * dbToLinear x := by ring
    have e2 : 3 * 4 * dbToLinear y / (16 - 1) = 3 * 4 / (16 - 1) * dbToLinear y := by ring
    rw [e1, e2]
    nlinarith [hq]
  case QAM64 =>
    simp only [theoreticalBER, ber64QAM]
    have hq := qFunction_sqrt_anti (3 * 6 / (64 - 1)) _ _ (by norm_num)
      (le_of_lt hex) hmono
    have e1 : 3 * 6 * dbToLinear x / (64 - 1) = 3 * 6 / (64 - 1) * dbToLinear x := by ring
    have e2 : 3 * 6 * dbToLinear y / (64 - 1) = 3 * 6 / (64 - 1) * dbToLinear y := by ring
    rw [e1, e2]
    nlinarith [hq]

/-- C4: for every scheme, `theoreticalBER` is monotonically non-increasing in
the Eb/N0 argument (in dB). -/
theorem theoreticalBER_antitone (scheme : ModulationScheme) (x y : ℝ) (hxy : x ≤ y) :
    theoreticalBER scheme y ≤ theoreticalBER scheme x :=
  theoreticalBER_anti scheme x y hxy

/-- C4 witness: concrete instance at BPSK between 0 dB and 1 dB. -/
theorem theoreticalBER_antitone_witness :
    theoreticalBER .BPSK 1 ≤ theoreticalBER .BPSK 0 :=
  theoreticalBER_antitone .BPSK 0 1 (by norm_num)

noncomputable section

/-- The `while (high - low > 0.01)` bisection loop of `requiredEbN0ForBER`,
indexed by a fuel bound on the iteration count.  In exact real arithmetic
each pass halves the bracket exactly, so 12 passes drive the width of the
initial [-10, 30] bracket below 0.01 (`bisectLoop_width`); the fuel is
therefore never exhausted with the guard still true. -/
def bisectLoop (f : ℝ → ℝ) (target : ℝ) : ℕ → ℝ → ℝ → ℝ × ℝ
  | 0, low, high => (low, high)
  | n + 1, low, high =>
    if high - low > 0.01 then
      let mid := (low + high) / 2
      if f mid > target then bisectLoop f target n mid high
      else bisectLoop f target n low mid
    else (low, high)

/-- `requiredEbN0ForBER(scheme, targetBER)` from `src/utils/theory.ts`.
`none` models the JavaScript return value `Infinity`. -/
def requiredEbN0ForBER (scheme : ModulationScheme) (targetBER : ℝ) : Option ℝ :=
  let low : ℝ := -10
  let high : ℝ := 30
  if theoreticalBER scheme high > targetBER then none
  else if theoreticalBER scheme low < targetBER then some low
  else
    let p := bisectLoop (theoreticalBER scheme) targetBER 12 low high
    some ((p.1 + p.2) / 2)

end

lemma bisectLoop_inv (f : ℝ → ℝ) (target : ℝ) :
    ∀ (n : ℕ) (low high : ℝ), low ≤ high → target ≤ f low → f high ≤ target →
      low ≤ (bisectLoop f target n low high).1
      ∧ (bisectLoop f target n low high).1 ≤ (bisectLoop f target n low high).2
      ∧ (bisectLoop f target n low high).2 ≤ high
      ∧ target ≤ f (bisectLoop f target n low high).1
      ∧ f (bisectLoop f target n low high).2 ≤ target := by
  intro n
  induction n with
  | zero =>
    intro low high h1 h2 h3
    exact ⟨le_refl _, h1, le_refl _, h2, h3⟩
  | succ n ih =>
    intro low high h1 h2 h3
    rw [bisectLoop]
    by_cases hg : high - low > 0.01
    · rw [if_pos hg]
      by_cases hf : f ((low + high) / 2) > target
      · rw [if_pos hf]
        obtain ⟨a1, a2, a3, a4, a5⟩ := ih ((low + high) / 2) high (by linarith) (le_of_lt hf) h3
        exact ⟨by linarith, a2, a3, a4, a5⟩
      · rw [if_neg hf]
        obtain ⟨a1, a2, a3, a4, a5⟩ := ih low ((low + high) / 2) (by linarith) h2 (not_lt.mp hf)
        exact ⟨a1, a2, by linarith, a4, a5⟩
    · rw [if_neg hg]
      exact ⟨le_refl _, h1, le_refl _, h2, h3⟩

lemma bisectLoop_width (f : ℝ → ℝ) (target : ℝ) :
    ∀ (n : ℕ) (low high : ℝ),
      (bisectLoop f target n low high).2 - (bisectLoop f target n low high).1
        ≤ max 0.01 ((high - low) / 2 ^ n) := by
  intro n
  induction n with
  | zero =>
    intro low high
    simp [bisectLoop]
  | succ n ih =>
    intro low high
    rw [bisectLoop]
    by_cases hg : high - low > 0.01
    · rw [if_pos hg]
      have hhalf : (high - (low + high) / 2) = (high - low) / 2 := by ring
      have hhalf2 : ((low + high) / 2 - low) = (high - low) / 2 := by ring
      have hpow : ((high - low) / 2) / 2 ^ n = (high - low) / 2 ^ (n + 1) := by
        rw [pow_succ]
        ring
      by_cases hf : f ((low + high) / 2) > target
      · rw [if_pos hf]
        calc (bisectLoop f target n ((low + high) / 2) high).2
              - (bisectLoop f target n ((low + high) / 2) high).1
            ≤ max 0.01 ((high - (low + high) / 2) / 2 ^ n) := ih _ _
          _ = max 0.01 ((high - low) / 2 ^ (n + 1)) := by rw [hhalf, hpow]
      · rw [if_neg hf]
        calc (bisectLoop f target n low ((low + high) / 2)).2
              - (bisectLoop f target n low ((low + high) / 2)).1
            ≤ max 0.01 (((low + high) / 2 - low) / 2 ^ n) := ih _ _
          _ = max 0.01 ((high - low) / 2 ^ (n + 1)) := by rw [hhalf2, hpow]
    · rw [if_neg hg]
      exact le_max_of_le_left (by linarith)

/-- C6: `requiredEbN0ForBER` always returns: `Infinity` (modelled `none`)
when the target is unreachable at 30 dB, the lower bound -10 dB when the
target is already met there, and otherwise the midpoint of a bracketing
interval inside [-10, 30] of width at most 0.01 dB. -/
theorem requiredEbN0ForBER_spec (scheme : ModulationScheme) (targetBER : ℝ) :
    (theoreticalBER scheme 30 > targetBER
      ∧ requiredEbN0ForBER scheme targetBER = none)
    ∨ (theoreticalBER scheme (-10) < targetBER
      ∧ requiredEbN0ForBER scheme targetBER = some (-10))
    ∨ (theoreticalBER scheme 30 ≤ targetBER ∧ targetBER ≤ theoreticalBER scheme (-10)
      ∧ ∃ low high, -10 ≤ low ∧ low ≤ high ∧ high ≤ 30 ∧ high - low ≤ 0.01
        ∧ targetBER ≤ theoreticalBER scheme low ∧ theoreticalBER scheme high ≤ targetBER
        ∧ requiredEbN0ForBER scheme targetBER = some ((low + high) / 2)) := by
  by_cases h2 : theoreticalBER scheme (-10) < targetBER
  · right
    left
    have hmono := theoreticalBER_anti scheme (-10) 30 (by norm_num)
    have h1 : ¬ theoreticalBER scheme 30 > targetBER :=
      not_lt.mpr (le_of_lt (lt_of_le_of_lt hmono h2))
    refine ⟨h2, ?_⟩
    rw [requiredEbN0ForBER, if_neg h1, if_pos h2]
  · by_cases h1 : theoreticalBER scheme 30 > targetBER
    · left
      refine ⟨h1, ?_⟩
      rw [requiredEbN0ForBER, if_pos h1]
    · right
      right
      have hhigh : theoreticalBER scheme 30 ≤ targetBER := not_lt.mp h1
      have hlow : targetBER ≤ theoreticalBER scheme (-10) := not_lt.mp h2
      obtain ⟨a1, a2, a3, a4, a5⟩ := bisectLoop_inv (theoreticalBER scheme) targetBER 12
        (-10) 30 (by norm_num) hlow hhigh
      have hw := bisectLoop_width (theoreticalBER scheme) targetBER 12 (-10) 30
      have hmax : max (0.01 : ℝ) ((30 - (-10)) / 2 ^ 12) = 0.01 := by
        rw [max_eq_left]
        norm_num
      rw [hmax] at hw
      refine ⟨hhigh, hlow,
        (bisectLoop (theoreticalBER scheme) targetBER 12 (-10) 30).1,
        (bisectLoop (theoreticalBER scheme) targetBER 12 (-10) 30).2,
        a1, a2, a3, hw, a4, a5, ?_⟩
      rw [requiredEbN0ForBER, if_neg h1, if_neg h2]

noncomputable section

/-- `calculateNoiseVariance(ebN0Db, scheme)` from `src/utils/channel.ts`. -/
def calculateNoiseVariance (ebN0Db : ℝ) (scheme : ModulationScheme) : ℝ :=
  let bitsPerSymbol := (BITS_PER_SYMBOL scheme : ℝ)
  let ebN0Linear := dbToLinear ebN0Db
  let esN0Linear := ebN0Linear * bitsPerSymbol
  1 / esN0Linear

/-- `generateRandomBits(count)` from `src/utils/modulation.ts`.  The
`Math.random() < 0.5` draws are abstracted by the Boolean stream `bitAt`:
the verified properties hold for every realization. -/
def generateRandomBits (bitAt : ℕ → Bool) (count : ℕ) : List ℕ :=
  (List.range count).map fun i => if bitAt i then 0 else 1

/-- `addAWGN(symbols, ebN0Db, scheme)` from `src/utils/channel.ts`.  The
per-symbol `complexGaussianRandom(noiseVariance)` draws are abstracted by
the stream `noiseAt` of arbitrary noise samples, one per symbol index. -/
def addAWGN (noiseAt : ℕ → Complex) (symbols : List Complex) (ebN0Db : ℝ)
    (scheme : ModulationScheme) : List Complex :=
  let _noiseVariance := calculateNoiseVariance ebN0Db scheme
  symbols.enum.map fun p => complexAdd p.2 (noiseAt p.1)

/-- The per-symbol error-accumulation loop of `simulateBerAtSnr`: for each
transmitted symbol paired with its decoded bit string, recover the
transmitted label via `symbolToBits` and add the Hamming distance. -/
def errorLoop (constellation : List ConstellationPoint) :
    List (Complex × String) → Except String ℕ
  | [] => .ok 0
  | p :: rest =>
    match countBitErrorsFromStrings (symbolToBits p.1 constellation) p.2 with
    | .ok n =>
      match errorLoop constellation rest with
      | .ok m => .ok (n + m)
      | .error e => .error e
    | .error e => .error e

/-- The `while (bitCount < bitsTarget)` batch loop of `simulateBerAtSnr`
(`src/utils/sweep.ts`), indexed by a fuel bound on the iteration count: each
pass adds at least one bit, so fuel `bitsTarget` provably exhausts the guard
(`sweepLoop_ok`).  `iter` indexes the random draws of each pass. -/
def sweepLoop (bitAt : ℕ → ℕ → Bool) (noiseAt : ℕ → ℕ → Complex)
    (scheme : ModulationScheme) (snrDb : ℝ) (bitsTarget batchSymbols : ℕ)
    (constellation : List ConstellationPoint) (bitsPerSymbol : ℕ) :
    ℕ → ℕ → ℕ → ℕ → Except String (ℕ × ℕ)
  | 0, _iter, bitCount, errorCount => .ok (bitCount, errorCount)
  | fuel + 1, iter, bitCount, errorCount =>
    if bitCount < bitsTarget then
      let remainingBits := bitsTarget - bitCount
      let symbolsThisBatch :=
        min batchSymbols ((remainingBits + bitsPerSymbol - 1) / bitsPerSymbol)
      let bitsThisBatch := symbolsThisBatch * bitsPerSymbol
      let bits := generateRandomBits (bitAt iter) bitsThisBatch
      match modulateBits bits constellation with
      | .error e => .error e
      | .ok txSymbols =>
        let rxSymbols := addAWGN (noiseAt iter) txSymbols snrDb scheme
        let decodedBitStrings := demodulate rxSymbols constellation
        match errorLoop constellation (txSymbols.zip decodedBitStrings) with
        | .error e => .error e
        | .ok batchErrors =>
          sweepLoop bitAt noiseAt scheme snrDb bitsTarget batchSymbols
            constellation bitsPerSymbol fuel (iter + 1)
            (bitCount + bitsThisBatch) (errorCount + batchErrors)
    else .ok (bitCount, errorCount)

/-- The `SweepPoint` record of `src/utils/sweep.ts`. -/
structure SweepPoint where
  snrDb : ℝ
  simulatedBER : ℝ
  theoreticalBER : ℝ
  bitCount : ℕ
  errorCount : ℕ

/-- `simulateBerAtSnr(scheme, snrDb, bitsTarget, batchSymbols = 400)` from
`src/utils/sweep.ts`, with the random draws abstracted by the streams
`bitAt` and `noiseAt`. -/
def simulateBerAtSnr (bitAt : ℕ → ℕ → Bool) (noiseAt : ℕ → ℕ → Complex)
    (scheme : ModulationScheme) (snrDb : ℝ) (bitsTarget : ℕ)
    (batchSymbols : ℕ := 400) : Except String SweepPoint :=
  let bitsPerSymbol := BITS_PER_SYMBOL scheme
  let constellation := generateConstellation scheme
  match sweepLoop bitAt noiseAt scheme snrDb bitsTarget batchSymbols
      constellation bitsPerSymbol bitsTarget 0 0 0 with
  | .error e => .error e
  | .ok (bitCount, errorCount) =>
    .ok { snrDb := snrDb
          simulatedBER := if bitCount > 0 then (errorCount : ℝ) / bitCount else 0
          theoreticalBER := theoreticalBER scheme snrDb
          bitCount := bitCount
          errorCount := errorCount }

end

lemma generateRandomBits_binary (bitAt : ℕ → Bool) (count : ℕ) :
    ∀ b ∈ generateRandomBits bitAt count, b = 0 ∨ b = 1 := by
  intro b hb
  simp only [generateRandomBits, List.mem_map] at hb
  obtain ⟨i, _, hi⟩ := hb
  by_cases h : bitAt i
  · left
    rw [← hi, if_pos h]
  · right
    rw [← hi, if_neg h]

lemma BITS_PER_SYMBOL_pos (scheme : ModulationScheme) : 0 < BITS_PER_SYMBOL scheme := by
  cases scheme <;> decide

lemma constellation_ne_nil (scheme : ModulationScheme) :
    generateConstellation scheme ≠ [] := by
  apply List.ne_nil_of_length_pos
  cases scheme <;> decide

lemma labels_length (scheme : ModulationScheme) :
    ∀ s ∈ (generateConstellation scheme).map (fun p => p.bits),
      s.length = BITS_PER_SYMBOL scheme := by
  cases scheme <;> decide

lemma symbolToBits_mem (s : Complex) (p0 : ConstellationPoint)
    (t : List ConstellationPoint) :
    ∃ q ∈ p0 :: t, symbolToBits s (p0 :: t) = q.bits := by
  obtain ⟨q, hq, he, _⟩ := minDistScan_spec s id p0 t ((p0 :: t).headD default)
  exact ⟨q, hq, congrArg ConstellationPoint.bits he⟩

lemma demodDecide_mem (s : Complex) (p0 : ConstellationPoint)
    (t : List ConstellationPoint) :
    ∃ q ∈ p0 :: t, demodDecide s (p0 :: t) = q.bits := by
  obtain ⟨q, hq, he, _⟩ :=
    minDistScan_spec s (fun r => r.bits) p0 t ((p0 :: t).headD default).bits
  exact ⟨q, hq, he⟩

lemma errorLoop_ok (c : List ConstellationPoint) (l : List (Complex × String))
    (h : ∀ p ∈ l, (symbolToBits p.1 c).length = p.2.length) :
    ∃ n, errorLoop c l = .ok n := by
  induction l with
  | nil => exact ⟨0, rfl⟩
  | cons p rest ih =>
    obtain ⟨m, hm⟩ := ih fun x hx => h x (List.mem_cons_of_mem p hx)
    have hlen := h p (List.mem_cons_self p rest)
    refine ⟨((symbolToBits p.1 c).data.zip p.2.data).countP (fun q => q.1 ≠ q.2) + m, ?_⟩
    rw [errorLoop, countBitErrorsFromStrings, if_neg (by omega), hm]

lemma sweepLoop_ok (bitAt : ℕ → ℕ → Bool) (noiseAt : ℕ → ℕ → Complex)
    (scheme : ModulationScheme) (snrDb : ℝ) (bitsTarget batchSymbols : ℕ)
    (hB : 0 < batchSymbols) :
    ∀ (fuel iter bitCount errorCount : ℕ),
      bitsTarget ≤ bitCount + fuel →
      bitCount < bitsTarget + BITS_PER_SYMBOL scheme →
      ∃ bc ec, sweepLoop bitAt noiseAt scheme snrDb bitsTarget batchSymbols
          (generateConstellation scheme) (BITS_PER_SYMBOL scheme)
          fuel iter bitCount errorCount = .ok (bc, ec)
        ∧ bitsTarget ≤ bc ∧ bc < bitsTarget + BITS_PER_SYMBOL scheme := by
  intro fuel
  induction fuel with
  | zero =>
    intro iter bitCount errorCount h1 h2
    exact ⟨bitCount, errorCount, rfl, by omega, h2⟩
  | succ fuel ih =>
    intro iter bitCount errorCount h1 h2
    simp only [sweepLoop]
    by_cases hguard : bitCount < bitsTarget
    · rw [if_pos hguard]
      set k := BITS_PER_SYMBOL scheme with hk
      have hkpos : 0 < k := BITS_PER_SYMBOL_pos scheme
      set remainingBits := bitsTarget - bitCount with hrem
      set symbolsThisBatch := min batchSymbols ((remainingBits + k - 1) / k) with hsym
      set bitsThisBatch := symbolsThisBatch * k with hbits
      have hrem1 : 1 ≤ remainingBits := by omega
      have hceil1 : 1 ≤ (remainingBits + k - 1) / k := by
        apply Nat.one_le_div_iff hkpos |>.mpr
        omega
      have hsym1 : 1 ≤ symbolsThisBatch := le_min hB hceil1
      have hbatch1 : 1 ≤ bitsThisBatch := by
        rw [hbits]
        exact Nat.one_le_iff_ne_zero.mpr (Nat.mul_ne_zero (by omega) (by omega))
      have hbatchle : bitsThisBatch < remainingBits + k := by
        rw [hbits]
        calc symbolsThisBatch * k ≤ ((remainingBits + k - 1) / k) * k :=
              Nat.mul_le_mul_right k (min_le_right _ _)
          _ ≤ remainingBits + k - 1 := Nat.div_mul_le_self _ _
          _ < remainingBits + k := by omega
      obtain ⟨txSymbols, htx, _⟩ := modulateBits_ok scheme
        (generateRandomBits (bitAt iter) bitsThisBatch)
        (generateRandomBits_binary (bitAt iter) bitsThisBatch)
      simp only [htx]
      obtain ⟨p0, t, hct⟩ : ∃ p0 t, generateConstellation scheme = p0 :: t := by
        cases hc : generateConstellation scheme with
        | nil => exact absurd hc (constellation_ne_nil scheme)
        | cons p0 t => exact ⟨p0, t, rfl⟩
      have herrlen : ∀ p ∈ txSymbols.zip (demodulate
          (addAWGN (noiseAt iter) txSymbols snrDb scheme) (generateConstellation scheme)),
          (symbolToBits p.1 (generateConstellation scheme)).length = p.2.length := by
        intro p hp
        have hp1 : p.1 ∈ txSymbols := List.mem_zip hp |>.1
        have hp2 : p.2 ∈ demodulate (addAWGN (noiseAt iter) txSymbols snrDb scheme)
            (generateConstellation scheme) := List.mem_zip hp |>.2
        have hlen1 : (symbolToBits p.1 (generateConstellation scheme)).length = k := by
          rw [hct]
          obtain ⟨q, hq, he⟩ := symbolToBits_mem p.1 p0 t
          rw [he]
          apply labels_length scheme
          rw [hct]
          exact List.mem_map_of_mem _ hq
        have hlen2 : p.2.length = k := by
          simp only [demodulate, List.mem_map] at hp2
          obtain ⟨s, _, hs⟩ := hp2
          rw [← hs, hct]
          obtain ⟨q, hq, he⟩ := demodDecide_mem s p0 t
          rw [he]
          apply labels_length scheme
          rw [hct]
          exact List.mem_map_of_mem _ hq
        rw [hlen1, hlen2]
      obtain ⟨batchErrors, hbe⟩ := errorLoop_ok (generateConstellation scheme) _ herrlen
      simp only [hbe]
      have ih2 := ih (iter + 1) (bitCount + bitsThisBatch) (errorCount + batchErrors)
        (by omega) (by omega)
      exact ih2
    · rw [if_neg hguard]
      exact ⟨bitCount, errorCount, rfl, by omega, h2⟩

/-- C7: for every realization of the random streams, every scheme, every SNR
and every positive bit target and batch size, `simulateBerAtSnr` terminates
with a `SweepPoint` whose bit count lands in `[bitsTarget, bitsTarget + k)`,
whose simulated BER is `errorCount / bitCount`, and whose theoretical BER
field is `theoreticalBER scheme snrDb`. -/
theorem simulateBerAtSnr_spec (bitAt : ℕ → ℕ → Bool) (noiseAt : ℕ → ℕ → Complex)
    (scheme : ModulationScheme) (snrDb : ℝ) (bitsTarget batchSymbols : ℕ)
    (hT : 0 < bitsTarget) (hB : 0 < batchSymbols) :
    ∃ pt, simulateBerAtSnr bitAt noiseAt scheme snrDb bitsTarget batchSymbols = .ok pt
      ∧ bitsTarget ≤ pt.bitCount
      ∧ pt.bitCount < bitsTarget + BITS_PER_SYMBOL scheme
      ∧ pt.simulatedBER = (pt.errorCount : ℝ) / pt.bitCount
      ∧ pt.theoreticalBER = theoreticalBER scheme snrDb
      ∧ pt.snrDb = snrDb := by
  obtain ⟨bc, ec, hrun, hge, hlt⟩ := sweepLoop_ok bitAt noiseAt scheme snrDb
    bitsTarget batchSymbols hB bitsTarget 0 0 0 (by omega)
    (by have := BITS_PER_SYMBOL_pos scheme; omega)
  refine ⟨{ snrDb := snrDb
            simulatedBER := if bc > 0 then (ec : ℝ) / bc else 0
            theoreticalBER := theoreticalBER scheme snrDb
            bitCount := bc
            errorCount := ec }, ?_, hge, hlt, ?_, rfl, rfl⟩
  · rw [simulateBerAtSnr, hrun]
  · have hbc : 0 < bc := by omega
    simp only [if_pos hbc]

/-- C7 witness: one bit through BPSK with constant streams. -/
theorem simulateBerAtSnr_spec_witness :
    ∃ pt, simulateBerAtSnr (fun _ _ => true) (fun _ _ => ⟨0, 0⟩) .BPSK 0 1 1 = .ok pt
      ∧ 1 ≤ pt.bitCount
      ∧ pt.bitCount < 1 + BITS_PER_SYMBOL .BPSK
      ∧ pt.simulatedBER = (pt.errorCount : ℝ) / pt.bitCount
      ∧ pt.theoreticalBER = theoreticalBER .BPSK 0
      ∧ pt.snrDb = 0 :=
  simulateBerAtSnr_spec (fun _ _ => true) (fun _ _ => ⟨0, 0⟩) .BPSK 0 1 1
    (by norm_num) (by norm_num)

end ModSim
